import Mathlib

/-!
Verification of the RSS feed ingestion backend (`src/main.rs`).

The program periodically fetches one RSS feed, parses it, normalizes each
raw item, and inserts it into a MongoDB collection unless an item with the
same `link` is already stored (`fetch_and_store_feed`).  Separate HTTP
handlers list the unposted items (`get_unposted_items`) and batch-mark a
set of links as posted (`mark_items_posted`, a `update_many` with
`$set posted : true`).

Shallow embedding: the MongoDB collection is a list of documents in
insertion order; `find_one` returns the first match, `insert_one` appends,
`update_many` maps over all documents and reports the number of documents
it actually changed (MongoDB's `modified_count` does not count documents
for which the `$set` was a no-op).  The network fetch plus RSS parse is an
`Except` input: either an error (transport or parse failure) or the
ordered list of raw items of the feed document.
-/

/-- The persisted record shape (struct `RssItem` in `main.rs`):
title, link, description, pub_date as text and the `posted` flag,
which `serde(default)`s to `false`. -/
structure RssItem where
  title : String
  link : String
  description : String
  pub_date : String
  posted : Bool
deriving Repr, DecidableEq

/-- One raw item of a parsed RSS channel: the `rss` crate exposes
`title()`, `link()`, `description()`, `pub_date()` as optional fields. -/
structure RawItem where
  title : Option String
  link : Option String
  description : Option String
  pub_date : Option String
deriving Repr, DecidableEq

/-- The normalization performed in the loop body of `fetch_and_store_feed`:
each field is `unwrap_or_default()` (the value when present, `""` when
absent) and `posted` is initialized to `false`. -/
def normalizeItem (item : RawItem) : RssItem :=
  { title := item.title.getD ""
    link := item.link.getD ""
    description := item.description.getD ""
    pub_date := item.pub_date.getD ""
    posted := false }

/-- The MongoDB collection, as the ordered list of its documents. -/
abbrev Store := List RssItem

/-- `collection.find_one(doc! \x7b "link": l \x7d)`: the first stored
document whose `link` equals `l`, if any. -/
def findOneByLink (store : Store) (l : String) : Option RssItem :=
  store.find? (fun it => it.link == l)

/-- `collection.insert_one(item)`: appends the document. -/
def insertOne (store : Store) (it : RssItem) : Store :=
  store ++ [it]

/-- The per-item loop of `fetch_and_store_feed`: normalize, query the
store by `link`, insert only when `find_one` returned nothing. -/
def storeItems (store : Store) : List RawItem → Store
  | [] => store
  | raw :: rest =>
      let rssItem := normalizeItem raw
      let store' :=
        if (findOneByLink store rssItem.link).isNone
        then insertOne store rssItem
        else store
      storeItems store' rest

/-- Failure modes of an ingestion run: `reqwest::get(...).await?` /
`.bytes().await?` (transport) or `Channel::read_from(...)?` (parse). -/
inductive FeedError where
  | fetchError
  | parseError
deriving Repr, DecidableEq

/-- `fetch_and_store_feed`: the fetch-plus-parse outcome is the `fetched`
input; on error the `?` operator propagates it before any store access,
on success every raw item is processed in parser order. Returns the
run outcome and the resulting store state. -/
def fetchAndStoreFeed (fetched : Except FeedError (List RawItem))
    (store : Store) : Except FeedError Unit × Store :=
  match fetched with
  | .error e => (.error e, store)
  | .ok items => (.ok (), storeItems store items)

/-- The update applied by `mark_items_posted`'s
`update_many(doc! \x7b "link": \x7b "$in": links \x7d \x7d,
doc! \x7b "$set": \x7b "posted": true \x7d \x7d)` to a single document. -/
def applyMark (links : List String) (it : RssItem) : RssItem :=
  if links.contains it.link then { it with posted := true } else it

/-- `mark_items_posted`: runs the `update_many` over every document and
returns the new store together with MongoDB's `modified_count` — the
number of documents the update actually changed. -/
def markItemsPosted (links : List String) (store : Store) : Store × Nat :=
  (store.map (applyMark links),
   store.countP (fun it => decide (applyMark links it ≠ it)))

/-- `get_unposted_items`: `find(doc! \x7b "posted": false \x7d)` — all
stored documents with `posted = false`, in store order. -/
def getUnpostedItems (store : Store) : List RssItem :=
  store.filter (fun it => !it.posted)

/-- `get_items`: `find(doc! \x7b\x7d)` — all stored documents. -/
def getItems (store : Store) : List RssItem :=
  store

/-- `const CHECK_INTERVAL_SECONDS: u64 = 60 * 30`. -/
def CHECK_INTERVAL_SECONDS : Nat := 60 * 30

/-- One iteration of `run_periodic_checker`'s loop after its tick:
run `fetch_and_store_feed`; an `Err` is logged and swallowed, leaving
the store as the failed run left it. -/
def checkerTick (fetched : Except FeedError (List RawItem))
    (store : Store) : Store :=
  (fetchAndStoreFeed fetched store).2

/-- The store state after `n` completed iterations of
`run_periodic_checker`'s loop, where `feeds i` is the fetch-and-parse
outcome seen by iteration `i`.  Each iteration starts only after the
previous one has finished: the loop body awaits the run before looping. -/
def runPeriodicChecker (feeds : Nat → Except FeedError (List RawItem)) :
    Nat → Store → Store
  | 0, store => store
  | n + 1, store => checkerTick (feeds n) (runPeriodicChecker feeds n store)

/-- The store states reachable from the empty collection by any sequence
of ingestion runs and mark-posted calls (the only writers in `main.rs`). -/
inductive Reachable : Store → Prop where
  | empty : Reachable []
  | ingest (fetched : Except FeedError (List RawItem)) (s : Store) :
      Reachable s → Reachable (fetchAndStoreFeed fetched s).2
  | mark (links : List String) (s : Store) :
      Reachable s → Reachable (markItemsPosted links s).1

/-! ### Helper lemmas about `storeItems` -/

/-- Processing a feed only ever appends to the store. -/
theorem storeItems_extends (items : List RawItem) (store : Store) :
    ∃ t, storeItems store items = store ++ t := by
  induction items generalizing store with
  | nil => exact ⟨[], by simp [storeItems]⟩
  | cons raw rest ih =>
    simp only [storeItems]
    by_cases h : (findOneByLink store (normalizeItem raw).link).isNone
    · simp only [h, if_true]
      obtain ⟨t, ht⟩ := ih (insertOne store (normalizeItem raw))
      exact ⟨normalizeItem raw :: t, by
        simpa [insertOne, List.append_assoc] using ht⟩
    · simp only [h, if_false]
      exact ih store

/-- `find_one` by link finds nothing exactly when the link is absent. -/
theorem findOneByLink_eq_none (store : Store) (l : String) :
    findOneByLink store l = none ↔ l ∉ store.map RssItem.link := by
  simp only [findOneByLink, List.find?_eq_none, List.mem_map]
  constructor
  · rintro h ⟨it, hit, rfl⟩
    exact absurd (by simp) (h it hit)
  · intro h it hit hbeq
    exact h ⟨it, hit, by simpa using hbeq⟩

/-- A link present in the store is still present after an ingestion run. -/
theorem mem_link_storeItems (items : List RawItem) (store : Store)
    (l : String) (h : l ∈ store.map RssItem.link) :
    l ∈ (storeItems store items).map RssItem.link := by
  obtain ⟨t, ht⟩ := storeItems_extends items store
  rw [ht]
  simp only [List.map_append, List.mem_append]
  exact Or.inl h

/-- A successful `find_one` by link means the link is stored. -/
theorem link_mem_of_findOne_isSome (store : Store) (l : String)
    (h : (findOneByLink store l).isSome) : l ∈ store.map RssItem.link := by
  simp only [findOneByLink, List.find?_isSome] at h
  obtain ⟨it, hit, hbeq⟩ := h
  exact List.mem_map.mpr ⟨it, hit, by simpa using hbeq⟩

/-- After an ingestion run, the link of every feed item is stored. -/
theorem feed_links_stored (items : List RawItem) (store : Store) :
    ∀ raw ∈ items,
      (normalizeItem raw).link ∈ (storeItems store items).map RssItem.link := by
  induction items generalizing store with
  | nil => intro raw h; cases h
  | cons raw0 rest ih =>
    intro raw hr
    simp only [storeItems]
    rcases List.mem_cons.mp hr with rfl | hr
    · by_cases h : (findOneByLink store (normalizeItem raw).link).isNone
      · simp only [h, if_true]
        apply mem_link_storeItems
        simp [insertOne]
      · simp only [h, if_false]
        apply mem_link_storeItems
        exact link_mem_of_findOne_isSome store _ (by
          simp only [Option.isNone_iff_eq_none] at h
          exact Option.isSome_iff_ne_none.mpr h)
    · exact ih _ raw hr

/-- When every feed item's link is already stored, the run is a no-op. -/
theorem storeItems_all_present (items : List RawItem) (store : Store)
    (h : ∀ raw ∈ items,
      (normalizeItem raw).link ∈ store.map RssItem.link) :
    storeItems store items = store := by
  induction items generalizing store with
  | nil => rfl
  | cons raw rest ih =>
    simp only [storeItems]
    have hmem : (normalizeItem raw).link ∈ store.map RssItem.link :=
      h raw (List.mem_cons_self raw rest)
    have hnone : (findOneByLink store (normalizeItem raw).link).isNone = false := by
      rw [Option.isNone_eq_false_iff]
      by_contra hns
      rw [Option.not_isSome_iff_eq_none] at hns
      exact (findOneByLink_eq_none store _).mp hns hmem
    simp only [hnone, Bool.false_eq_true, if_false]
    exact ih store (fun r hr => h r (List.mem_cons_of_mem raw hr))

/-- C1: ingestion is idempotent — a second run against the unchanged
feed document returns the same outcome and leaves the store exactly as
the first run left it: nothing is inserted and no stored field changes. -/
theorem ingest_idempotent (fetched : Except FeedError (List RawItem))
    (store : Store) :
    fetchAndStoreFeed fetched (fetchAndStoreFeed fetched store).2 =
      fetchAndStoreFeed fetched store := by
  cases fetched with
  | error e => rfl
  | ok items =>
    simp only [fetchAndStoreFeed]
    rw [storeItems_all_present items (storeItems store items)
      (feed_links_stored items store)]

/-- An ingestion run appends only fresh, unposted entries. -/
theorem storeItems_tail_unposted (items : List RawItem) (store : Store) :
    ∃ t, storeItems store items = store ++ t ∧ ∀ it ∈ t, it.posted = false := by
  induction items generalizing store with
  | nil => exact ⟨[], by simp [storeItems], by simp⟩
  | cons raw rest ih =>
    simp only [storeItems]
    by_cases h : (findOneByLink store (normalizeItem raw).link).isNone
    · simp only [h, if_true]
      obtain ⟨t, ht, hp⟩ := ih (insertOne store (normalizeItem raw))
      refine ⟨normalizeItem raw :: t, ?_, ?_⟩
      · simpa [insertOne, List.append_assoc] using ht
      · intro it hit
        rcases List.mem_cons.mp hit with rfl | hit
        · rfl
        · exact hp it hit
    · simp only [h, if_false]
      exact ih store

/-- C3: an ingestion run never touches an already stored entry — the
resulting store is the old store followed by freshly inserted entries
(all with `posted = false`), so every stored entry keeps every one of its
fields, including a `posted` flag previously set to `true`. -/
theorem ingest_frame (fetched : Except FeedError (List RawItem))
    (store : Store) :
    ∃ t, (fetchAndStoreFeed fetched store).2 = store ++ t ∧
      ∀ it ∈ t, it.posted = false := by
  cases fetched with
  | error e => exact ⟨[], by simp [fetchAndStoreFeed], by simp⟩
  | ok items =>
    simpa [fetchAndStoreFeed] using storeItems_tail_unposted items store

/-- C4: a transport or parse failure is propagated and aborts the run
before any store write: the outcome is the error and the store is left
exactly as it was, with zero entries inserted. -/
theorem fetch_error_aborts (e : FeedError) (store : Store) :
    (fetchAndStoreFeed (.error e) store).1 = Except.error e ∧
    (fetchAndStoreFeed (.error e) store).2 = store :=
  ⟨rfl, rfl⟩

/-- C6: the normalizer is a total function; each of title, link,
description and publication date is copied verbatim when present and
replaced by `""` when absent, and `posted` always starts out `false`. -/
theorem normalizeItem_spec (raw : RawItem) :
    (∀ s, raw.title = some s → (normalizeItem raw).title = s) ∧
    (raw.title = none → (normalizeItem raw).title = "") ∧
    (∀ s, raw.link = some s → (normalizeItem raw).link = s) ∧
    (raw.link = none → (normalizeItem raw).link = "") ∧
    (∀ s, raw.description = some s → (normalizeItem raw).description = s) ∧
    (raw.description = none → (normalizeItem raw).description = "") ∧
    (∀ s, raw.pub_date = some s → (normalizeItem raw).pub_date = s) ∧
    (raw.pub_date = none → (normalizeItem raw).pub_date = "") ∧
    (normalizeItem raw).posted = false := by
  refine ⟨?_, ?_, ?_, ?_, ?_, ?_, ?_, ?_, rfl⟩ <;>
    first
      | (intro s h; simp [normalizeItem, h])
      | (intro h; simp [normalizeItem, h])

/-- Witness for C6 at a concrete raw item with a present title and an
absent description. -/
theorem normalizeItem_spec_witness :
    (normalizeItem ⟨some "t", some "l", none, none⟩).title = "t" ∧
    (normalizeItem ⟨some "t", some "l", none, none⟩).description = "" := by
  have h := normalizeItem_spec ⟨some "t", some "l", none, none⟩
  exact ⟨h.1 "t" rfl, h.2.2.2.2.2.1 rfl⟩

/-- C8: the scheduler ticks at a fixed 1800-second period; iteration
`n + 1` starts only from the state the fully completed iteration `n`
produced (the loop awaits each run, so its own invocations never
overlap); the loop is total — it is defined after any number of
iterations — and a failed run is swallowed, leaving the store for the
next tick exactly as that failed run left it. -/
theorem scheduler_spec :
    CHECK_INTERVAL_SECONDS = 1800 ∧
    (∀ (feeds : Nat → Except FeedError (List RawItem)) (n : Nat)
        (store : Store),
      runPeriodicChecker feeds (n + 1) store =
        checkerTick (feeds n) (runPeriodicChecker feeds n store)) ∧
    (∀ (e : FeedError) (store : Store),
      checkerTick (.error e) store = store) :=
  ⟨rfl, fun _ _ _ => rfl, fun _ _ => rfl⟩

/-- Pointwise effect of the mark-posted update on one document. -/
theorem applyMark_fields (links : List String) (it : RssItem) :
    applyMark links it =
      { title := it.title, link := it.link, description := it.description,
        pub_date := it.pub_date,
        posted := it.posted || links.contains it.link } := by
  cases it with
  | mk t l d p po => by_cases h : l ∈ links <;> simp [applyMark, h]

/-- The update changes a document exactly when its link is in the set
and it was not posted yet. -/
theorem applyMark_changed (links : List String) (it : RssItem) :
    decide (applyMark links it ≠ it) =
      (links.contains it.link && !it.posted) := by
  cases it with
  | mk t l d p po =>
    by_cases h : l ∈ links
    · cases po <;> simp [applyMark, h]
    · simp [applyMark, h]

/-- C2: `mark_items_posted` sets `posted = true` on exactly the stored
entries whose link is in the given set (every other field, and every
other entry, is untouched; links with no stored entry are ignored), and
returns the number of entries actually changed — an entry that was
already posted is not counted.  On three unposted entries `A`, `B`, `C`,
marking `[A, B, X]` with `X` unknown returns 2 and flips exactly `A`
and `B`. -/
theorem markItemsPosted_spec (links : List String) (store : Store) :
    (∀ i : Nat, ((markItemsPosted links store).1)[i]? =
      (store[i]?).map (fun it =>
        { title := it.title, link := it.link,
          description := it.description, pub_date := it.pub_date,
          posted := it.posted || links.contains it.link })) ∧
    ((markItemsPosted links store).2 =
      (store.filter (fun it => links.contains it.link && !it.posted)).length) ∧
    (markItemsPosted ["A", "B", "X"]
        [⟨"a", "A", "", "", false⟩, ⟨"b", "B", "", "", false⟩,
         ⟨"c", "C", "", "", false⟩] =
      ([⟨"a", "A", "", "", true⟩, ⟨"b", "B", "", "", true⟩,
        ⟨"c", "C", "", "", false⟩], 2)) := by
  refine ⟨?_, ?_, ?_⟩
  · intro i
    simp only [markItemsPosted, List.getElem?_map]
    cases store[i]? with
    | none => rfl
    | some it => simp [applyMark_fields]
  · simp only [markItemsPosted, List.countP_eq_length_filter]
    congr 1
    exact List.filter_congr (fun it _ => applyMark_changed links it)
  · decide

/-- C5: `get_unposted_items` returns exactly the stored entries with
`posted = false`, and after marking a link posted, no entry with that
link appears in a subsequent unposted listing. -/
theorem getUnpostedItems_spec :
    (∀ store : Store, ∀ it ∈ getUnpostedItems store, it.posted = false) ∧
    (∀ store : Store, ∀ it ∈ store,
      it.posted = false → it ∈ getUnpostedItems store) ∧
    (∀ (l : String) (store : Store),
      ∀ it ∈ getUnpostedItems (markItemsPosted [l] store).1,
        it.link ≠ l) := by
  refine ⟨?_, ?_, ?_⟩
  · intro store it hit
    have h := List.of_mem_filter hit
    simpa using h
  · intro store it hit hp
    exact List.mem_filter.mpr ⟨hit, by simp [hp]⟩
  · intro l store it hit heq
    have h := List.mem_filter.mp hit
    obtain ⟨it0, hit0, rfl⟩ := List.mem_map.mp h.1
    have hp := h.2
    rw [applyMark_fields] at heq hp
    simp at hp
    exact hp.2 (by simpa using heq)

/-- Witness for C5 on a two-entry store: the store
`[⟨a, A, unposted⟩, ⟨b, B, posted⟩]` lists only the first entry as
unposted, and after `mark_items_posted [A]` no listed entry has link
`A` any more. -/
theorem getUnpostedItems_spec_witness :
    (⟨"a", "A", "", "", false⟩ : RssItem) ∈
      getUnpostedItems [⟨"a", "A", "", "", false⟩, ⟨"b", "B", "", "", true⟩] ∧
    (∀ it ∈ getUnpostedItems
        (markItemsPosted ["A"]
          [⟨"a", "A", "", "", false⟩, ⟨"b", "B", "", "", true⟩]).1,
      it.link ≠ "A") := by
  constructor
  · exact getUnpostedItems_spec.2.1 _ _ (by simp) rfl
  · intro it hit
    exact getUnpostedItems_spec.2.2 "A" _ it hit

/-- Check-then-insert preserves distinctness of stored links. -/
theorem storeItems_nodup (items : List RawItem) (store : Store)
    (h : (store.map RssItem.link).Nodup) :
    ((storeItems store items).map RssItem.link).Nodup := by
  induction items generalizing store with
  | nil => simpa [storeItems] using h
  | cons raw rest ih =>
    simp only [storeItems]
    by_cases hf : (findOneByLink store (normalizeItem raw).link).isNone
    · simp only [hf, if_true]
      apply ih
      have habs : (normalizeItem raw).link ∉ store.map RssItem.link :=
        (findOneByLink_eq_none _ _).mp (Option.isNone_iff_eq_none.mp hf)
      simp only [insertOne, List.map_append, List.map_cons, List.map_nil]
      rw [List.nodup_append]
      exact ⟨h, List.nodup_singleton _, by
        intro a ha hb
        simp only [List.mem_singleton] at hb
        exact habs (hb ▸ ha)⟩
    · simp only [hf, if_false]
      exact ih store h

/-- The mark-posted update never changes any stored link. -/
theorem markItemsPosted_links (links : List String) (store : Store) :
    ((markItemsPosted links store).1).map RssItem.link =
      store.map RssItem.link := by
  simp only [markItemsPosted, List.map_map]
  apply List.map_congr_left
  intro it _
  rw [Function.comp_apply, applyMark_fields]

/-- In every reachable store state the stored links are pairwise
distinct. -/
theorem reachable_nodup (s : Store) (h : Reachable s) :
    (s.map RssItem.link).Nodup := by
  induction h with
  | empty => simp
  | ingest fetched s _ ih =>
    cases fetched with
    | error e => simpa [fetchAndStoreFeed] using ih
    | ok items =>
      simpa [fetchAndStoreFeed] using storeItems_nodup items s ih
  | mark links s _ ih =>
    rw [markItemsPosted_links]
    exact ih

/-- When stored links are pairwise distinct, at most one stored entry
carries any given link. -/
theorem filter_link_length_le_one (s : Store) (x : String)
    (h : (s.map RssItem.link).Nodup) :
    (s.filter (fun it => it.link == x)).length ≤ 1 := by
  induction s with
  | nil => simp
  | cons a l ih =>
    simp only [List.map_cons, List.nodup_cons] at h
    by_cases ha : a.link = x
    · have hnil : l.filter (fun it => it.link == x) = [] := by
        rw [List.filter_eq_nil_iff]
        intro b hb hbx
        refine h.1 (List.mem_map.mpr ⟨b, hb, ?_⟩)
        rw [ha, ← show b.link = x from by simpa using hbx]
      simp [List.filter_cons, ha, hnil]
    · have ha' : (a.link == x) = false := by simpa using ha
      simp only [List.filter_cons, ha', Bool.false_eq_true, if_false]
      exact ih h.2

/-- C7: in every store state reachable from the empty store by any
sequence of ingestion runs and mark-posted calls, at most one stored
entry exists per distinct link value. -/
theorem store_link_unique (s : Store) (hs : Reachable s) (l : String) :
    (s.filter (fun it => it.link == l)).length ≤ 1 :=
  filter_link_length_le_one s l (reachable_nodup s hs)

/-- Witness for C7: the state reached by ingesting a feed that repeats
link `L` twice, then marking `L` posted, holds at most one entry with
link `L`. -/
theorem store_link_unique_witness :
    (((markItemsPosted ["L"]
        (fetchAndStoreFeed
          (.ok [⟨some "x", some "L", none, none⟩,
                ⟨some "y", some "L", none, none⟩]) []).2).1).filter
      (fun it => it.link == "L")).length ≤ 1 :=
  store_link_unique _
    (Reachable.mark ["L"] _ (Reachable.ingest _ _ Reachable.empty)) "L"

/-- Once a link is stored, an ingestion run adds no further entry with
that link: the stored entries carrying it are unchanged. -/
theorem storeItems_filter_of_mem (items : List RawItem) (store : Store)
    (l : String) (h : l ∈ store.map RssItem.link) :
    (storeItems store items).filter (fun it => it.link == l) =
      store.filter (fun it => it.link == l) := by
  induction items generalizing store with
  | nil => simp [storeItems]
  | cons raw rest ih =>
    simp only [storeItems]
    by_cases hf : (findOneByLink store (normalizeItem raw).link).isNone
    · simp only [hf, if_true]
      have habs : (normalizeItem raw).link ∉ store.map RssItem.link :=
        (findOneByLink_eq_none _ _).mp (Option.isNone_iff_eq_none.mp hf)
      have hne : ((normalizeItem raw).link == l) = false := by
        simp only [beq_eq_false_iff_ne, ne_eq]
        exact fun he => habs (he ▸ h)
      rw [ih (insertOne store (normalizeItem raw))
        (by simp only [insertOne, List.map_append, List.mem_append]
            exact Or.inl h)]
      simp [insertOne, List.filter_append, hne]
    · simp only [hf, if_false]
      exact ih store h

/-- C9: within a single ingestion run, only the first feed occurrence
(in parser order) of a link new to the store is inserted; every later
occurrence of the same link is found by the per-entry query and
skipped, so the run's stored entries for that link are exactly the
normalization of its first raw occurrence. -/
theorem storeItems_first_occurrence (items : List RawItem) (store : Store)
    (l : String) (hl : l ∉ store.map RssItem.link) :
    (storeItems store items).filter (fun it => it.link == l) =
      match items.find? (fun raw => (normalizeItem raw).link == l) with
      | none => []
      | some raw => [normalizeItem raw] := by
  induction items generalizing store with
  | nil =>
    simp only [storeItems, List.find?_nil]
    rw [List.filter_eq_nil_iff]
    intro b hb hbx
    exact hl (List.mem_map.mpr ⟨b, hb, by simpa using hbx⟩)
  | cons raw rest ih =>
    simp only [storeItems]
    by_cases hr : ((normalizeItem raw).link == l) = true
    · have hfind :
          List.find? (fun r => (normalizeItem r).link == l) (raw :: rest) =
            some raw :=
        List.find?_cons_of_pos _ hr
      rw [hfind]
      have hE : l = (normalizeItem raw).link := (by simpa using hr : (normalizeItem raw).link = l).symm
      have hf : (findOneByLink store (normalizeItem raw).link).isNone := by
        rw [Option.isNone_iff_eq_none, findOneByLink_eq_none]
        exact hE ▸ hl
      simp only [hf, if_true]
      rw [storeItems_filter_of_mem rest (insertOne store (normalizeItem raw)) l
        (by simp [insertOne, hE])]
      have hnil : store.filter (fun it => it.link == l) = [] := by
        rw [List.filter_eq_nil_iff]
        intro b hb hbx
        exact hl (List.mem_map.mpr ⟨b, hb, by simpa using hbx⟩)
      simp [insertOne, List.filter_append, hnil, hr]
    · have hfind :
          List.find? (fun r => (normalizeItem r).link == l) (raw :: rest) =
            List.find? (fun r => (normalizeItem r).link == l) rest :=
        List.find?_cons_of_neg _ (by simpa using hr)
      rw [hfind]
      by_cases hf : (findOneByLink store (normalizeItem raw).link).isNone
      · simp only [hf, if_true]
        apply ih
        simp only [insertOne, List.map_append, List.mem_append]
        rintro (hc | hc)
        · exact hl hc
        · simp only [List.map_cons, List.map_nil, List.mem_singleton] at hc
          exact hr (by simpa using hc.symm)
      · simp only [hf, if_false]
        exact ih store hl

/-- Witness for C9: ingesting two raw items that share link `L` into
the empty store stores exactly the normalization of the first one. -/
theorem storeItems_first_occurrence_witness :
    (storeItems [] [⟨some "x", some "L", none, none⟩,
                    ⟨some "y", some "L", none, none⟩]).filter
      (fun it => it.link == "L") =
      [normalizeItem ⟨some "x", some "L", none, none⟩] := by
  have h := storeItems_first_occurrence
    [⟨some "x", some "L", none, none⟩, ⟨some "y", some "L", none, none⟩]
    [] "L" (by simp)
  simpa using h

/-- C10: a raw item with no link normalizes to `link = ""` and such
entries deduplicate against each other like any shared link: once a
link-less entry is stored, an ingestion run (the same or any later one)
adds no further empty-link entry, and every reachable store state holds
at most one entry with the empty-string link. -/
theorem linkless_dedup :
    (∀ raw : RawItem, raw.link = none → (normalizeItem raw).link = "") ∧
    (∀ (store : Store) (items : List RawItem),
      "" ∈ store.map RssItem.link →
      (storeItems store items).filter (fun it => it.link == "") =
        store.filter (fun it => it.link == "")) ∧
    (∀ s : Store, Reachable s →
      (s.filter (fun it => it.link == "")).length ≤ 1) := by
  refine ⟨?_, ?_, ?_⟩
  · intro raw h
    simp [normalizeItem, h]
  · intro store items h
    exact storeItems_filter_of_mem items store "" h
  · intro s hs
    exact filter_link_length_le_one s "" (reachable_nodup s hs)

/-- Witness for C10: two link-less raw items ingested into the empty
store leave at most one empty-link entry, which a second identical run
does not grow. -/
theorem linkless_dedup_witness :
    (normalizeItem ⟨some "x", none, none, none⟩).link = "" ∧
    (storeItems (storeItems [] [⟨some "x", none, none, none⟩])
        [⟨some "y", none, none, none⟩]).filter
      (fun it => it.link == "") =
      (storeItems [] [⟨some "x", none, none, none⟩]).filter
        (fun it => it.link == "") ∧
    ((fetchAndStoreFeed (.ok [⟨some "x", none, none, none⟩,
        ⟨some "y", none, none, none⟩]) []).2.filter
      (fun it => it.link == "")).length ≤ 1 := by
  refine ⟨linkless_dedup.1 _ rfl, linkless_dedup.2.1 _ _ (by decide), ?_⟩
  exact linkless_dedup.2.2 _ (Reachable.ingest _ _ Reachable.empty)

/-- Witness for C1: running the ingestor twice on a concrete two-item
feed from the empty store equals running it once. -/
theorem ingest_idempotent_witness :
    fetchAndStoreFeed (.ok [⟨some "x", some "L1", none, none⟩,
        ⟨some "y", some "L2", none, none⟩])
      (fetchAndStoreFeed (.ok [⟨some "x", some "L1", none, none⟩,
          ⟨some "y", some "L2", none, none⟩]) []).2 =
      fetchAndStoreFeed (.ok [⟨some "x", some "L1", none, none⟩,
        ⟨some "y", some "L2", none, none⟩]) [] :=
  ingest_idempotent _ []

/-- Witness for C2: the concrete three-entry scenario, extracted at
`links = [A, B, X]`. -/
theorem markItemsPosted_spec_witness :
    markItemsPosted ["A", "B", "X"]
        [⟨"a", "A", "", "", false⟩, ⟨"b", "B", "", "", false⟩,
         ⟨"c", "C", "", "", false⟩] =
      ([⟨"a", "A", "", "", true⟩, ⟨"b", "B", "", "", true⟩,
        ⟨"c", "C", "", "", false⟩], 2) :=
  (markItemsPosted_spec ["A", "B", "X"]
    [⟨"a", "A", "", "", false⟩, ⟨"b", "B", "", "", false⟩,
     ⟨"c", "C", "", "", false⟩]).2.2

/-- Witness for C3: ingesting over a store holding a posted entry with
link `L1` only appends, leaving that entry intact. -/
theorem ingest_frame_witness :
    ∃ t, (fetchAndStoreFeed (.ok [⟨some "x", some "L1", none, none⟩])
        [⟨"a", "L1", "", "", true⟩]).2 = [⟨"a", "L1", "", "", true⟩] ++ t ∧
      ∀ it ∈ t, it.posted = false :=
  ingest_frame _ [⟨"a", "L1", "", "", true⟩]

/-- Witness for C4: a concrete transport error leaves a concrete
one-entry store untouched. -/
theorem fetch_error_aborts_witness :
    (fetchAndStoreFeed (.error .fetchError) [⟨"a", "A", "", "", false⟩]).1 =
      Except.error FeedError.fetchError ∧
    (fetchAndStoreFeed (.error .fetchError) [⟨"a", "A", "", "", false⟩]).2 =
      [⟨"a", "A", "", "", false⟩] :=
  fetch_error_aborts FeedError.fetchError [⟨"a", "A", "", "", false⟩]

/-- Witness for C8: one loop iteration whose run fails leaves the empty
store unchanged for the next tick. -/
theorem scheduler_spec_witness :
    runPeriodicChecker (fun _ => .error FeedError.fetchError) 1 [] = [] :=
  (scheduler_spec.2.1 (fun _ => .error FeedError.fetchError) 0 []).trans
    (scheduler_spec.2.2 FeedError.fetchError [])
